import Mathlib

/-!
Verification of the streaming conditional TTS subsystem of
`src/transformers/models/minicpm_o/modeling_minicpm_o.py`.

The development shallowly embeds the pure control logic of the streaming
TTS controller (`MiniCPMOChatSpeechModel`) and its helpers:

* `make_streaming_chunk_mask_generation` (mask generator),
* `CustomRepetitionPenaltyLogitsProcessorRepeat.__call__`,
* `apply_spk_emb`,
* `prefill_text`, `prefill_audio_ids`, and the `generate` loop.

Tensors of token ids are embedded as lists of naturals, logit/score
tensors as lists of rationals (with `WithBot` marking the `-inf` value
used for filtered-out logits), and per-layer KV caches as lists of
(keys, values) pairs of lists whose elements are opaque.  The causal
transformer backbone (`self.model`, a `LlamaModel` that is not part of
the sources under scrutiny) is an external collaborator; operations
that invoke it are parameterized by an opaque backbone function, with
its documented cache-append contract stated as an explicit hypothesis
where a theorem needs it.

Fallible tensor operations (failed `assert` statements, shape-mismatch
slice assignments) are embedded with `Option`, `none` marking the
Python exception.
-/

namespace MiniCPMO

/-! ## Streaming mask generator

Embeds `make_streaming_chunk_mask_generation` (modeling file, lines
279-349).  The produced attention-bias tensor has shape
`[1, 1, 1, past_seen_tokens + seq]`; we embed it as its length
(`maskLen`) together with the map from a flat index to the bias value
(`makeStreamingChunkMask`).  `minVal` stands for
`torch.finfo(dtype).min`, the large negative value used as `-inf`;
`textMask` is `streaming_tts_text_mask` as a boolean vector
(`true` = entry `1`, i.e. text already supplied). -/

/-- Python slice endpoint semantics: a negative endpoint counts from the
end of a sequence of length `len`, and endpoints are clamped to
`[0, len]`. -/
def pySliceEndpoint (len : Nat) (i : Int) : Nat :=
  if i < 0 then (len + i).toNat else min i.toNat len

/-- `invisible_text_tokens_start` (lines 324-332):
`min(ceil((past_seen_tokens - streaming_reserved_length) /
streaming_audio_chunk_size) * streaming_text_chunk_size,
streaming_reserved_length) + 1 + num_spk_emb * use_spk_emb`. -/
def invisibleTextTokensStart (pastSeenTokens reservedLen audioChunkSize textChunkSize numSpkEmb : Nat) (useSpkEmb : Bool) : Int :=
  min (⌈(((pastSeenTokens : ℚ) - reservedLen) / audioChunkSize : ℚ)⌉ * textChunkSize) (reservedLen : Int)
    + 1 + numSpkEmb * (if useSpkEmb then 1 else 0)

/-- `invisible_text_tokens_end` (lines 334-336):
`streaming_reserved_length + 1 + num_spk_emb * use_spk_emb + 1`. -/
def invisibleTextTokensEnd (reservedLen numSpkEmb : Nat) (useSpkEmb : Bool) : Nat :=
  reservedLen + 1 + numSpkEmb * (if useSpkEmb then 1 else 0) + 1

/-- Length of the mask row built by `make_streaming_chunk_mask_generation`:
`past_seen_tokens + inputs_embeds.shape[1]`. -/
def maskLen (pastSeenTokens seq : Nat) : Nat :=
  pastSeenTokens + seq

/-- The bias value at flat index `p` of the mask built by
`make_streaming_chunk_mask_generation` (lines 316-347): start from a row
of zeros of length `past_seen_tokens + seq`, assign `minVal` on the
Python slice `[invisible_text_tokens_start : invisible_text_tokens_end]`,
then `masked_fill_` the conditioning region
`[0 : 1 + num_spk_emb*use_spk_emb + streaming_reserved_length + 1]` with
`minVal` wherever `streaming_tts_text_mask` is `0`. -/
def makeStreamingChunkMask (pastSeenTokens : Nat) (textMask : List Bool)
    (reservedLen audioChunkSize textChunkSize numSpkEmb : Nat) (useSpkEmb : Bool)
    (seq : Nat) (minVal : ℚ) (p : Nat) : ℚ :=
  let len := maskLen pastSeenTokens seq
  let s := pySliceEndpoint len (invisibleTextTokensStart pastSeenTokens reservedLen audioChunkSize textChunkSize numSpkEmb useSpkEmb)
  let e := pySliceEndpoint len (invisibleTextTokensEnd reservedLen numSpkEmb useSpkEmb)
  let afterSlice : ℚ := if s ≤ p ∧ p < e then minVal else 0
  if p < 1 + numSpkEmb * (if useSpkEmb then 1 else 0) + reservedLen + 1 ∧ textMask.getD p true = false then
    minVal
  else afterSlice

/-- A text position `p` of the reserved text region (flat indices
`1 + spk .. spk + reservedLen` inside the conditioning region) is
*visible* when the mask row holds bias `0` there rather than `minVal`. -/
def textPosVisible (pastSeenTokens : Nat) (textMask : List Bool)
    (reservedLen audioChunkSize textChunkSize numSpkEmb : Nat) (useSpkEmb : Bool)
    (seq : Nat) (minVal : ℚ) (p : Nat) : Prop :=
  makeStreamingChunkMask pastSeenTokens textMask reservedLen audioChunkSize textChunkSize numSpkEmb useSpkEmb seq minVal p = 0

/-! ### Claim C3: the concrete mask scenario

Scenario of spec §8: `streaming_text_reserved_len = 10`,
`streaming_text_chunk_size = 2`, `streaming_audio_chunk_size = 5`, no
speaker embedding, `past_seen_tokens` advanced from
`condition_length = 1 + 0 + 10 + 1 = 12` to `condition_length + 5 = 17`. -/

/-- C3, counterexample: in the concrete scenario the code computes
`invisible_text_tokens_start = min(ceil((17-10)/5)*2, 10) + 1 + 0 = 5`,
not `1` as the claim states. -/
theorem c3_invisible_start_not_one :
    invisibleTextTokensStart 17 10 5 2 0 false ≠ 1 := by
  have h : (⌈(((17 : ℚ)) - 10) / 5⌉ : ℤ) = 2 := by norm_num [Int.ceil_eq_iff]
  simp only [invisibleTextTokensStart]
  push_cast
  rw [h]
  norm_num

/-- C3, amended: in the concrete scenario (`past_seen_tokens = 17`,
`reserved_len = 10`, `audio_chunk = 5`, `text_chunk = 2`, no speaker
embedding) the mask generator computes `invisible_text_tokens_start =
min(ceil((17-10)/5)*2, 10) + 1 + 0 = 5`. -/
theorem c3_invisible_start_eq_five :
    invisibleTextTokensStart 17 10 5 2 0 false = 5 := by
  have h : (⌈(((17 : ℚ)) - 10) / 5⌉ : ℤ) = 2 := by norm_num [Int.ceil_eq_iff]
  simp only [invisibleTextTokensStart]
  push_cast
  rw [h]
  norm_num

/-! ### Claim C5: monotonicity of the visible text set -/

/-- The reveal frontier is nonnegative once the cache already holds the
whole conditioning region up to the reserved text
(`past_seen_tokens > reservedLen`), so no Python negative-index
wrap-around occurs in the slice assignment. -/
lemma invisibleTextTokensStart_nonneg (past r c t s : Nat) (u : Bool)
    (hc : 0 < c) (hpast : r < past) :
    0 ≤ invisibleTextTokensStart past r c t s u := by
  have hceil : 0 < (⌈(((past : ℚ)) - r) / c⌉ : ℤ) := by
    rw [Int.ceil_pos]
    apply div_pos
    · have : (r : ℚ) < past := by exact_mod_cast hpast
      linarith
    · exact_mod_cast hc
  have h1 : (0 : ℤ) ≤ min ((⌈(((past : ℚ)) - r) / c⌉ : ℤ) * t) r := by
    apply le_min
    · positivity
    · positivity
  simp only [invisibleTextTokensStart]
  have h2 : (0 : ℤ) ≤ (s : Int) * (if u then 1 else 0) := by positivity
  omega

/-- The reveal frontier `invisible_text_tokens_start` is monotone in
`past_seen_tokens`. -/
lemma invisibleTextTokensStart_mono (p1 p2 r c t s : Nat) (u : Bool)
    (hc : 0 < c) (h12 : p1 ≤ p2) :
    invisibleTextTokensStart p1 r c t s u ≤ invisibleTextTokensStart p2 r c t s u := by
  have hceil : (⌈(((p1 : ℚ)) - r) / c⌉ : ℤ) ≤ ⌈(((p2 : ℚ)) - r) / c⌉ := by
    apply Int.ceil_le_ceil
    have hp : (p1 : ℚ) ≤ p2 := by exact_mod_cast h12
    have hc' : (0 : ℚ) < c := by exact_mod_cast hc
    gcongr
  have hmul : (⌈(((p1 : ℚ)) - r) / c⌉ : ℤ) * t ≤ ⌈(((p2 : ℚ)) - r) / c⌉ * t := by
    apply mul_le_mul_of_nonneg_right hceil (by positivity)
  simp only [invisibleTextTokensStart]
  have := min_le_min_right (r : Int) hmul
  omega

/-- Characterization of visibility of a conditioning-region position
`p < 1 + spk + reservedLen`: once the cache holds the whole conditioning
region (`past_seen_tokens ≥ 1 + spk + reservedLen`), position `p` is
visible iff its `streaming_tts_text_mask` entry is set and `p` lies
strictly before the reveal frontier `invisible_text_tokens_start`. -/
lemma textPosVisible_iff (past : Nat) (textMask : List Bool)
    (r c t s : Nat) (u : Bool) (seq : Nat) (minVal : ℚ) (p : Nat)
    (hc : 0 < c) (hmin : minVal < 0)
    (hpast : 1 + s * (if u then 1 else 0) + r ≤ past)
    (hp : p < 1 + s * (if u then 1 else 0) + r) :
    textPosVisible past textMask r c t s u seq minVal p ↔
      (textMask.getD p true = true ∧ (p : Int) < invisibleTextTokensStart past r c t s u) := by
  have hs0 : 0 ≤ invisibleTextTokensStart past r c t s u :=
    invisibleTextTokensStart_nonneg past r c t s u hc (by omega)
  have hmin' : minVal ≠ 0 := ne_of_lt hmin
  simp only [textPosVisible, makeStreamingChunkMask, maskLen, pySliceEndpoint,
    invisibleTextTokensEnd]
  rw [if_neg (by omega : ¬ invisibleTextTokensStart past r c t s u < 0)]
  rw [if_neg (not_lt.mpr (Int.natCast_nonneg (r + 1 + s * (if u then 1 else 0) + 1)))]
  have hEndToNat : ((r + 1 + s * (if u then 1 else 0) + 1 : Nat) : Int).toNat
      = r + 1 + s * (if u then 1 else 0) + 1 := Int.toNat_natCast _
  rw [hEndToNat]
  cases hmask : textMask.getD p true with
  | false =>
      rw [if_pos ⟨by omega, rfl⟩]
      simp [hmin']
  | true =>
      rw [if_neg (by simp [hmask])]
      have hpe : p < min (r + 1 + s * (if u then 1 else 0) + 1) (past + seq) := by omega
      by_cases hin : min (invisibleTextTokensStart past r c t s u).toNat (past + seq) ≤ p
      · rw [if_pos ⟨hin, hpe⟩]
        simp only [hmin', false_iff]
        rintro ⟨-, hlt⟩
        have : p < (invisibleTextTokensStart past r c t s u).toNat := by
          rw [Int.lt_toNat] at *
          exact hlt
        omega
      · rw [if_neg (fun h => hin h.1)]
        simp only [eq_self_iff_true, true_iff]
        refine ⟨trivial, ?_⟩
        have : p < (invisibleTextTokensStart past r c t s u).toNat := by omega
        rwa [Int.lt_toNat] at this

/-- C5: for a fixed `streaming_tts_text_mask` and fixed configuration,
the set of reserved-text positions that the streaming mask generator
marks visible (bias `0` rather than the large negative `minVal`) is
non-decreasing as `past_seen_tokens` increases, over the reachable
states `past_seen_tokens ≥ 1 + spk + reservedLen` (the cache always
holds the full conditioning region by construction of the protocol). -/
theorem c5_visible_text_monotone (textMask : List Bool)
    (r c t s : Nat) (u : Bool) (seq : Nat) (minVal : ℚ) (p p1 p2 : Nat)
    (hc : 0 < c) (hmin : minVal < 0)
    (hp1 : 1 + s * (if u then 1 else 0) + r ≤ p1) (h12 : p1 ≤ p2)
    (_hpLo : 1 + s * (if u then 1 else 0) ≤ p)
    (hpHi : p < 1 + s * (if u then 1 else 0) + r)
    (hvis : textPosVisible p1 textMask r c t s u seq minVal p) :
    textPosVisible p2 textMask r c t s u seq minVal p := by
  rw [textPosVisible_iff p1 textMask r c t s u seq minVal p hc hmin hp1 hpHi] at hvis
  rw [textPosVisible_iff p2 textMask r c t s u seq minVal p hc hmin (le_trans hp1 h12) hpHi]
  exact ⟨hvis.1, lt_of_lt_of_le hvis.2 (invisibleTextTokensStart_mono p1 p2 r c t s u hc h12)⟩

/-- C5 witness: concrete instance with `reservedLen = 10`,
`audio_chunk = 5`, `text_chunk = 2`, no speaker embedding, position `1`
visible at `past_seen_tokens = 11` and hence also at `12`. -/
theorem c5_visible_text_monotone_witness :
    textPosVisible 11 (List.replicate 12 true) 10 5 2 0 false 1 (-1000) 1 ∧
      textPosVisible 12 (List.replicate 12 true) 10 5 2 0 false 1 (-1000) 1 := by
  have hceil : (⌈(((11 : ℚ)) - 10) / 5⌉ : ℤ) = 1 := by norm_num [Int.ceil_eq_iff]
  have hvis : textPosVisible 11 (List.replicate 12 true) 10 5 2 0 false 1 (-1000) 1 := by
    simp only [textPosVisible, makeStreamingChunkMask, maskLen, pySliceEndpoint,
      invisibleTextTokensEnd, invisibleTextTokensStart]
    push_cast
    rw [hceil]
    norm_num
  refine ⟨hvis, ?_⟩
  exact c5_visible_text_monotone (List.replicate 12 true) 10 5 2 0 false 1 (-1000) 1 11 12
    (by norm_num) (by norm_num) (by norm_num) (by norm_num) (by norm_num) (by norm_num) hvis

/-! ## Repetition penalty processor

Embeds `CustomRepetitionPenaltyLogitsProcessorRepeat.__call__` (lines
207-220).  `input_ids` (the per-codebook histories, one row per
flattened batch element) is a list of rows of token ids, `scores` a
list of rows of rational logits. -/

/-- The lookback window: `input_ids.narrow(1, -past_window, past_window)`
keeps only the most recent `past_window` ids of a row (applied only when
the row is longer than the window). -/
def pastWindowIds (pastWindow : Nat) (ids : List Nat) : List Nat :=
  if pastWindow < ids.length then ids.drop (ids.length - pastWindow) else ids

/-- Effective occurrence count used by the processor:
`freq = F.one_hot(input_ids, scores.size(1)).sum(1)` followed by
`freq.narrow(0, max_input_ids, ...).zero_()`, i.e. the count of token
`j` in row `r`'s lookback window, zeroed for rows `r ≥ max_input_ids`. -/
def repFreq (maxInputIds pastWindow : Nat) (inputIds : List (List Nat)) (r j : Nat) : Nat :=
  if r < maxInputIds then (pastWindowIds pastWindow (inputIds.getD r [])).count j else 0

/-- The processor output:
`alpha = penalty ** freq; out = where(scores < 0, scores * alpha, scores / alpha)`. -/
def repetitionPenaltyApply (penalty : ℚ) (maxInputIds pastWindow : Nat)
    (inputIds : List (List Nat)) (scores : List (List ℚ)) : List (List ℚ) :=
  scores.mapIdx fun r row =>
    row.mapIdx fun j v =>
      if v < 0 then v * penalty ^ repFreq maxInputIds pastWindow inputIds r j
      else v / penalty ^ repFreq maxInputIds pastWindow inputIds r j

/-- C4: each vocabulary entry `j` of a tracked score row `r` with
occurrence count `c > 0` in the lookback window and original logit `v`
is mapped to `v * penalty ^ c` when `v < 0` and to `v / penalty ^ c`
when `v ≥ 0`.  (`r < max_input_ids` reflects the processor's row cap;
in every call made by the TTS controller the number of rows is
`num_vq`, far below `max_input_ids = num_audio_tokens`.) -/
theorem c4_repetition_penalty_sign (penalty : ℚ) (maxInputIds pastWindow : Nat)
    (inputIds : List (List Nat)) (scores : List (List ℚ)) (r j c : Nat) (v : ℚ)
    (_hpen : 0 < penalty)
    (hr : r < scores.length) (hrmax : r < maxInputIds)
    (hj : j < (scores.getD r []).length)
    (hcount : c = (pastWindowIds pastWindow (inputIds.getD r [])).count j)
    (_hcpos : 0 < c)
    (hv : v = (scores.getD r []).getD j 0) :
    ((repetitionPenaltyApply penalty maxInputIds pastWindow inputIds scores).getD r []).getD j 0
      = if v < 0 then v * penalty ^ c else v / penalty ^ c := by
  have hlenOuter : r < (repetitionPenaltyApply penalty maxInputIds pastWindow inputIds scores).length := by
    simpa [repetitionPenaltyApply, List.length_mapIdx] using hr
  rw [List.getD_eq_getElem _ _ hlenOuter]
  rw [List.getD_eq_getElem _ _ hr] at hj hv
  have hOuter :
      (repetitionPenaltyApply penalty maxInputIds pastWindow inputIds scores)[r] =
        (scores[r]).mapIdx fun j v =>
          if v < 0 then v * penalty ^ repFreq maxInputIds pastWindow inputIds r j
          else v / penalty ^ repFreq maxInputIds pastWindow inputIds r j := by
    simp only [repetitionPenaltyApply, ← List.get_eq_getElem]
    exact List.get_mapIdx scores _ r hr
  rw [hOuter]
  have hlenInner : j < ((scores[r]).mapIdx fun j v =>
      if v < 0 then v * penalty ^ repFreq maxInputIds pastWindow inputIds r j
      else v / penalty ^ repFreq maxInputIds pastWindow inputIds r j).length := by
    simpa [List.length_mapIdx] using hj
  rw [List.getD_eq_getElem _ _ hlenInner]
  rw [List.getD_eq_getElem _ _ hj] at hv
  have hInner := List.get_mapIdx (scores.get ⟨r, hr⟩)
    (fun j v =>
      if v < 0 then v * penalty ^ repFreq maxInputIds pastWindow inputIds r j
      else v / penalty ^ repFreq maxInputIds pastWindow inputIds r j) j hj
  simp only [List.get_eq_getElem] at hInner
  rw [hInner]
  simp only [repFreq, if_pos hrmax, ← hcount, ← hv]

/-- C4 witness: penalty `2`, one history row `[0, 0]`, score row
`[-4, 8]`; entry `0` has window count `2` and logit `-4 < 0`, and is
mapped to `-4 * 2 ^ 2 = -16`. -/
theorem c4_repetition_penalty_sign_witness :
    ((repetitionPenaltyApply 2 5 16 [[0, 0]] [[-4, 8]]).getD 0 []).getD 0 0 = -16 := by
  have h := c4_repetition_penalty_sign 2 5 16 [[0, 0]] [[-4, 8]] 0 0 2 (-4)
    (by norm_num) (by norm_num) (by norm_num) (by norm_num)
    (by decide) (by norm_num) (by norm_num)
  rw [h]
  norm_num

/-! ## Speaker-embedding splicing

Embeds `apply_spk_emb` (lines 243-276).  The controller always calls it
with batch size 1, so we embed the per-batch-element body: `inputIds`
is one row of token ids, `spkEmb` the projected speaker-embedding rows
(elements of an opaque row type `E`), `inputEmbeds` the embedding rows
to be mutated.  Python exceptions (the placeholder-count `assert`,
`.min()` on an empty index tensor, and a shape-mismatched slice
assignment) are embedded as `none`. -/

/-- Shared helper: entry `p` of `l.mapIdx f` for an in-range `p`. -/
lemma getD_mapIdx {α β : Type} (l : List α) (f : Nat → α → β) (p : Nat) (d : β) (d' : α)
    (hp : p < l.length) :
    (l.mapIdx f).getD p d = f p (l.getD p d') := by
  rw [List.getD_eq_getElem _ _ (by simpa [List.length_mapIdx] using hp),
    List.getD_eq_getElem _ _ hp]
  have h := List.get_mapIdx l f p hp
  simp only [List.get_eq_getElem] at h
  exact h

/-- Placeholder positions:
`(input_ids_ == spk_emb_token_id).nonzero(as_tuple=False)`, in
ascending index order. -/
def spkEmbPositions (inputIds : List Nat) (spkEmbTokenId : Nat) : List Nat :=
  (List.range inputIds.length).filter fun p => inputIds.getD p 0 == spkEmbTokenId

/-- Body of `apply_spk_emb` for one batch element: assert that the
number of placeholder positions equals `num_spk_embs`; take the minimal
and maximal placeholder positions; execute
`input_embeds[idx, begin : end + 1, :] = spk_emb_`, which broadcasts
the `spk_emb.length` embedding rows over the `end + 1 - begin` target
rows — a Python shape error (`none`) unless the row counts agree or the
source has a single row. -/
def applySpkEmb {E : Type} (inputIds : List Nat) (spkEmb : List E)
    (inputEmbeds : List E) (spkEmbTokenId numSpkEmbs : Nat) : Option (List E) :=
  let ps := spkEmbPositions inputIds spkEmbTokenId
  if ps.length ≠ numSpkEmbs then none
  else
    match ps.min?, ps.max? with
    | some b, some e =>
        let n := min (e + 1) inputEmbeds.length - min b inputEmbeds.length
        if spkEmb.length = n ∨ spkEmb.length = 1 then
          some (inputEmbeds.mapIdx fun p x =>
            if min b inputEmbeds.length ≤ p ∧ p < min (e + 1) inputEmbeds.length then
              (if spkEmb.length = 1 then spkEmb.getD 0 x else spkEmb.getD (p - b) x)
            else x)
        else none
    | _, _ => none

/-- C10, counterexample: token row `[5, 7, 5]` with placeholder id `5`
and `num_spk_embs = 2` has placeholders at positions `0` and `2`
(`p_min = 0`, `p_max = 2`).  The claim says row `1` (a non-placeholder)
is overwritten too; in fact the slice assignment broadcasts 2 source
rows onto 3 target rows, which is a shape error — the call raises and
overwrites nothing. -/
theorem c10_apply_spk_emb_gap_is_error :
    applySpkEmb [5, 7, 5] ([30, 40] : List Int) [10, 11, 12] 5 2 = none := by
  decide

/-- C10, amended: when the placeholder span is exactly `num_spk_embs`
rows (`p_max + 1 - p_min = num_spk_embs`, i.e. the placeholders are
consecutive), `apply_spk_emb` overwrites exactly rows
`p_min .. p_max` with the corresponding speaker-embedding rows and
leaves every other row unchanged; when the span differs from
`num_spk_embs` and `num_spk_embs ≥ 2` (placeholders with a gap), the
slice assignment is a shape error and the call fails without
overwriting anything. -/
theorem c10_apply_spk_emb_consecutive (E : Type) (inputIds : List Nat) (spkEmb : List E)
    (inputEmbeds : List E) (tokId k b e : Nat)
    (hlen : (spkEmbPositions inputIds tokId).length = k)
    (hmin : (spkEmbPositions inputIds tokId).min? = some b)
    (hmax : (spkEmbPositions inputIds tokId).max? = some e)
    (hk : spkEmb.length = k) (hk2 : 2 ≤ k)
    (he : e < inputEmbeds.length) :
    (e + 1 - b = k →
      ∃ out, applySpkEmb inputIds spkEmb inputEmbeds tokId k = some out ∧
        out.length = inputEmbeds.length ∧
        (∀ p d, b ≤ p → p ≤ e → out.getD p d = spkEmb.getD (p - b) d) ∧
        (∀ p d, p < b ∨ e < p → out.getD p d = inputEmbeds.getD p d)) ∧
    (e + 1 - b ≠ k →
      applySpkEmb inputIds spkEmb inputEmbeds tokId k = none) := by
  have hbe : b ≤ e := by
    have hbmem : b ∈ spkEmbPositions inputIds tokId :=
      List.min?_mem (fun a b => min_choice a b) hmin
    have hemax := (List.max?_eq_some_iff (fun a => le_refl a) (fun a b => max_choice a b)
      (fun a b c => max_le_iff)).mp hmax
    exact hemax.2 b hbmem
  have hb : min b inputEmbeds.length = b := min_eq_left (by omega)
  have he1 : min (e + 1) inputEmbeds.length = e + 1 := min_eq_left (by omega)
  constructor
  · intro hspan
    refine ⟨inputEmbeds.mapIdx fun p x =>
        if min b inputEmbeds.length ≤ p ∧ p < min (e + 1) inputEmbeds.length then
          (if spkEmb.length = 1 then spkEmb.getD 0 x else spkEmb.getD (p - b) x)
        else x, ?_, ?_, ?_, ?_⟩
    · simp only [applySpkEmb, if_neg (by omega : ¬ (spkEmbPositions inputIds tokId).length ≠ k),
        hmin, hmax]
      rw [hb, he1, if_pos (Or.inl (by omega))]
    · simp [List.length_mapIdx]
    · intro p d hbp hpe
      rw [getD_mapIdx _ _ _ _ d (by omega)]
      rw [hb, he1, if_pos ⟨by omega, by omega⟩, if_neg (by omega)]
      have hrange : p - b < spkEmb.length := by omega
      rw [List.getD_eq_getElem _ _ hrange, List.getD_eq_getElem _ _ hrange]
    · intro p d hp
      by_cases hplen : p < inputEmbeds.length
      · rw [getD_mapIdx _ _ _ _ d hplen]
        rw [hb, he1, if_neg (by omega)]
      · rw [List.getD_eq_default _ _ (by simpa [List.length_mapIdx] using not_lt.mp hplen),
          List.getD_eq_default _ _ (not_lt.mp hplen)]
  · intro hspan
    simp only [applySpkEmb, if_neg (by omega : ¬ (spkEmbPositions inputIds tokId).length ≠ k),
      hmin, hmax]
    rw [hb, he1, if_neg (by omega)]

/-- C10 witness for the amended theorem: consecutive placeholders
`[9, 5, 5, 8]` with id `5` and `num_spk_embs = 2` overwrite exactly
rows `1` and `2`. -/
theorem c10_apply_spk_emb_consecutive_witness :
    applySpkEmb [9, 5, 5, 8] ([30, 40] : List Int) [10, 11, 12, 13] 5 2
      = some [10, 30, 40, 13] := by
  have h := (c10_apply_spk_emb_consecutive Int [9, 5, 5, 8] [30, 40] [10, 11, 12, 13] 5 2 1 2
    (by decide) (by decide) (by decide) (by decide) (by decide) (by decide)).1 (by decide)
  obtain ⟨out, hout, hlen, hin, hother⟩ := h
  rw [hout]
  have h0 := hother 0 0 (Or.inl (by norm_num))
  have h1 := hin 1 0 (by norm_num) (by norm_num)
  have h2 := hin 2 0 (by norm_num) (by norm_num)
  have h3 := hother 3 0 (Or.inr (by norm_num))
  have hchar : out = [out.getD 0 0, out.getD 1 0, out.getD 2 0, out.getD 3 0] := by
    have hlen4 : out.length = 4 := by simpa using hlen
    match out, hlen4 with
    | [a, b, c, d], _ => simp [List.getD]
  rw [hchar, h0, h1, h2, h3]
  decide

/-! ## KV cache model and the external backbone

`past_key_values` is a list of per-layer `(key, value)` tensor pairs;
we keep only the sequence dimension (entries of an opaque type `K`,
one per cached position).  The backbone (`self.model`, a `LlamaModel`
instantiated in `__init__` and declared an external collaborator by the
spec) is an opaque function of the cache, the position ids and the
attention-bias mask row; the inputs-embeds argument is folded into the
opaque function since each call site fixes it.  -/

/-- One transformer layer's cached keys and values along the sequence
dimension. -/
abbrev LayerKV (K : Type) := List K × List K

/-- `past_key_values`: one `(key, value)` pair per layer. -/
abbrev KVCache (K : Type) := List (LayerKV K)

/-- `past_key_values[0][0].shape[2]`: the sequence length of the first
layer's keys (the Python code indexes layer `0`; a cache must be
non-empty for this to be meaningful). -/
def kvSeqLen {K : Type} (c : KVCache K) : Nat :=
  (c.headD ([], [])).1.length

/-- Modelled from the spec: the backbone contract of spec §6 — the
`LlamaModel` forward (not among the sources under scrutiny) "must
support incremental decoding ... and must return per-layer KV state in
the same structural shape it was given"; its `DynamicCache` appends one
new entry per new position to every layer's keys and values. -/
def BackboneAppends {K : Type} (backbone : KVCache K → List Nat → (Nat → ℚ) → KVCache K) : Prop :=
  ∀ c pids mask,
    (backbone c pids mask).length = c.length ∧
    ∀ l, l < c.length →
      ∃ ek ev : List K, ek.length = pids.length ∧ ev.length = pids.length ∧
        (backbone c pids mask).getD l ([], []) =
          ((c.getD l ([], [])).1 ++ ek, (c.getD l ([], [])).2 ++ ev)

/-! ## prefill_text (lines 766-837)

`prefill_text` clones the cache prefix before `position_ids[:, 0]`,
runs a backbone forward pass over the new text span with a plain causal
mask (`attention_mask=None`), and copies the key/value entries for the
span `position_ids[:, 0] .. position_ids[:, -1]` of the updated clone
back into the caller's pre-allocated cache tensors.  A shape-mismatched
slice assignment is a Python error (`none`). -/

/-- Python slice read `xs[a:b]` for nonnegative endpoints. -/
def pyExtract {α : Type} (xs : List α) (a b : Nat) : List α :=
  (xs.take b).drop a

/-- Python slice assignment `xs[a:b] = ys`: the target span (clamped to
the list) must have exactly `ys.length` positions, else a shape error. -/
def setSliceChecked {α : Type} (xs : List α) (a b : Nat) (ys : List α) : Option (List α) :=
  if min b xs.length - min a xs.length = ys.length then
    some (xs.mapIdx fun p x =>
      if min a xs.length ≤ p ∧ p < min b xs.length then ys.getD (p - min a xs.length) x else x)
  else none

/-- The per-layer copy loop of `prefill_text` (lines 820-832): write
`updated[l][0][:, :, a:b]` into `cache[l][0][:, :, a:b]` and likewise
for values, for every layer. -/
def spliceLayers {K : Type} (cache updated : KVCache K) (a b : Nat) : Option (KVCache K) :=
  match cache, updated with
  | [], _ => some []
  | ckv :: crest, ukv :: urest => do
      let k ← setSliceChecked ckv.1 a b (pyExtract ukv.1 a b)
      let v ← setSliceChecked ckv.2 a b (pyExtract ukv.2 a b)
      let rest ← spliceLayers crest urest a b
      pure ((k, v) :: rest)
  | _ :: _, [] => none

/-- `prefill_text`: clone the cache prefix strictly before
`position_ids[:, 0]`, run the backbone over the new span (plain causal
mask, embedded as the constant-zero bias), and splice the updated
entries of the span back into the caller's cache.  Empty `position_ids`
would fail Python indexing (`none`). -/
def prefill_text {K : Type} (backbone : KVCache K → List Nat → (Nat → ℚ) → KVCache K)
    (positionIds : List Nat) (cache : KVCache K) : Option (KVCache K) :=
  match positionIds with
  | [] => none
  | p0 :: _ =>
      let cloned := cache.map fun kv => (kv.1.take p0, kv.2.take p0)
      let updated := backbone cloned positionIds (fun _ => 0)
      spliceLayers cache updated p0 (positionIds.getLastD 0 + 1)

/-! ## prefill_audio_ids (lines 839-892)

Sums the per-codebook embeddings (opaque), optionally prepends the
audio-bos embedding, computes position ids continuing from the current
cache length, builds the streaming mask and runs one backbone forward
whose `DynamicCache` output extends the cache.  Note: the call to
`make_streaming_chunk_mask_generation` leaves `streaming_audio_chunk_size`,
`num_spk_emb` and `use_spk_emb` at their defaults `50`, `1`, `True`. -/

/-- `position_ids = torch.arange(past_key_values_length,
past_key_values_length + input_len)` where `input_len` counts the audio
positions plus one optional audio-bos position. -/
def prefillAudioPositionIds {K : Type} (cache : KVCache K) (numAudioIds : Nat)
    (addAudioBos : Bool) : List Nat :=
  List.range' (kvSeqLen cache) (numAudioIds + (if addAudioBos then 1 else 0))

/-- A sampled code row: one code index per codebook. -/
abbrev Row := List Nat

/-- `prefill_audio_ids`: one backbone forward pass over the
`input_len` new positions with the streaming chunk mask; the returned
`DynamicCache` is the updated cache. -/
def prefill_audio_ids {K : Type} (backbone : KVCache K → List Nat → (Nat → ℚ) → KVCache K)
    (reservedLen textChunkSize : Nat) (minVal : ℚ)
    (inputIds : List Row) (cache : KVCache K) (textMask : List Bool)
    (addAudioBos : Bool) : KVCache K :=
  let inputLen := inputIds.length + (if addAudioBos then 1 else 0)
  backbone cache (prefillAudioPositionIds cache inputIds.length addAudioBos)
    (fun p => makeStreamingChunkMask (kvSeqLen cache) textMask reservedLen 50 textChunkSize
      1 true inputLen minVal p)

/-! ## generate (lines 894-1129)

The decoding loop.  Logit rows (one per codebook, `num_audio_tokens`
long) take values in `WithBot ℚ`, `⊥` standing for `-inf`.  The opaque
`stepLogits i ids` bundles the backbone hidden state, the `num_vq`
output heads, the temperature division and — except at the audio-bos
step, which is a function of `ids.length` — the configured logits
processors and warpers (steps 4-7 of spec §4.4); the explicit eos
forcing of lines 1072-1076 is embedded separately.  `pick i lo`
abstracts `torch.multinomial(F.softmax(lo), 1)` per codebook row. -/

/-- Logit rows per codebook. -/
abbrev Logits := List (List (WithBot ℚ))

/-- `logits[:, eos_token] = -torch.inf` on one row. -/
def maskEosRow (eos : Nat) (row : List (WithBot ℚ)) : List (WithBot ℚ) :=
  row.set eos ⊥

/-- `logits[:, eos_token] = -torch.inf` on every codebook row. -/
def maskEos (eos : Nat) (lo : Logits) : Logits :=
  lo.map (maskEosRow eos)

/-- Configuration fields of the speech model read by `generate`. -/
structure GenConfig where
  numSpkEmbs : Nat
  useSpkEmb : Bool
  reservedLen : Nat
  textChunkSize : Nat
  eosToken : Nat
  forceNoStop : Bool
  minNewToken : Nat
  maxNewToken : Nat

/-- `condition_length = 1 + num_spk_embs * use_speaker_embedding +
streaming_text_reserved_len + 1` (line 968; `start_idx` of line 937 is
the same expression). -/
def condLength (cfg : GenConfig) : Nat :=
  1 + cfg.numSpkEmbs * (if cfg.useSpkEmb then 1 else 0) + cfg.reservedLen + 1

/-- The post-warper logits of step `i` after the explicit eos forcing:
`if i < min_new_token: logits[:, eos_token] = -inf` and
`if force_no_stop: logits[:, eos_token] = -inf` (lines 1072-1076). -/
def stepLogitsMasked (cfg : GenConfig) (stepLogits : Nat → List Row → Logits)
    (i : Nat) (ids : List Row) : Logits :=
  let lo := stepLogits i ids
  let lo1 := if i < cfg.minNewToken then maskEos cfg.eosToken lo else lo
  if cfg.forceNoStop then maskEos cfg.eosToken lo1 else lo1

/-- The code row sampled at step `i` (`idx_next` reshaped to one code
per codebook, line 1081 and 1086). -/
def sampledRow (cfg : GenConfig) (stepLogits : Nat → List Row → Logits)
    (pick : Nat → Logits → Row) (i : Nat) (ids : List Row) : Row :=
  pick i (stepLogitsMasked cfg stepLogits i ids)

/-- Loop state of `generate`: the audio-id sequence seen so far
(`input_ids`, i.e. the filled region of `input_ids_buf`, whose length
is the `progress` counter), the KV cache, and the `finish` flag. -/
structure GenState (K : Type) where
  ids : List Row
  cache : KVCache K
  finish : Bool

/-- One iteration of the `for i in range(max_new_token)` loop
(lines 970-1106).  `none` is the failed alignment assert
`progress == past_key_values[0][0].shape[2] + 1` (lines 978-980).  The
sampled row is written into `input_ids_buf` at index `progress`; on the
step-0 early break (lines 1094-1096) `progress` is *not* advanced, so
the written row stays outside `input_ids`.  The returned `Bool` is the
loop-break flag (step-0 eos break, or `finish.all()` of line 1102). -/
def genStep {K : Type} (cfg : GenConfig) (minVal : ℚ)
    (backbone : KVCache K → List Nat → (Nat → ℚ) → KVCache K)
    (stepLogits : Nat → List Row → Logits) (pick : Nat → Logits → Row)
    (textMask : List Bool) (i : Nat) (st : GenState K) : Option (GenState K × Bool) :=
  if st.ids.length ≠ kvSeqLen st.cache + 1 then none
  else
    let cache1 := backbone st.cache [kvSeqLen st.cache]
      (fun p => makeStreamingChunkMask (kvSeqLen st.cache) textMask cfg.reservedLen 50
        cfg.textChunkSize 1 true 1 minVal p)
    let row := sampledRow cfg stepLogits pick i st.ids
    let fin1 := st.finish || row.any fun v => v == cfg.eosToken
    if i == 0 && fin1 then some (⟨st.ids, cache1, fin1⟩, true)
    else some (⟨st.ids ++ [row], cache1, fin1⟩, fin1)

/-- The loop of `generate`, with `fuel` remaining iterations and `i`
the current loop index. -/
def genLoop {K : Type} (cfg : GenConfig) (minVal : ℚ)
    (backbone : KVCache K → List Nat → (Nat → ℚ) → KVCache K)
    (stepLogits : Nat → List Row → Logits) (pick : Nat → Logits → Row)
    (textMask : List Bool) : Nat → Nat → GenState K → Option (GenState K)
  | 0, _, st => some st
  | fuel + 1, i, st =>
      match genStep cfg minVal backbone stepLogits pick textMask i st with
      | none => none
      | some (st1, brk) =>
          if brk then some st1
          else genLoop cfg minVal backbone stepLogits pick textMask fuel (i + 1) st1

/-- The returned `ConditionalChatTTSGenerationOutput` (lines 1124-1129). -/
structure GenOutput (K : Type) where
  newIds : List Row
  audioInputIds : List Row
  cache : KVCache K
  finished : Bool

/-- `generate` (lines 894-1129): run the loop from step `0`, then slice
the result: `input_ids[:, condition_length:-1, :]` when every batch
element finished (dropping the trailing eos row), and
`input_ids[:, condition_length:, :]` otherwise. -/
def generate {K : Type} (cfg : GenConfig) (minVal : ℚ)
    (backbone : KVCache K → List Nat → (Nat → ℚ) → KVCache K)
    (stepLogits : Nat → List Row → Logits) (pick : Nat → Logits → Row)
    (textMask : List Bool) (inputIds : List Row) (cache : KVCache K) : Option (GenOutput K) :=
  match genLoop cfg minVal backbone stepLogits pick textMask cfg.maxNewToken 0
      ⟨inputIds, cache, false⟩ with
  | none => none
  | some st =>
      let newIds :=
        if st.finish then (st.ids.drop (condLength cfg)).dropLast
        else st.ids.drop (condLength cfg)
      some ⟨newIds, st.ids, st.cache, st.finish⟩

/-! ### Claim C1: step-0 eos stops immediately with zero new rows -/

/-- C1: in a `generate` call on a freshly prefilled session
(`input_ids` is exactly the conditioning region, the cache aligned one
behind it as the loop assert demands), if the row sampled at loop step
`0` contains `eos_token` in some codebook, the loop breaks immediately:
the call returns `finished = True`, `new_ids` has zero rows, and the
audio-id sequence is returned unchanged (the sampled eos row was
written into `input_ids_buf` but `progress` was not advanced, so it is
not part of the returned sequence). -/
theorem c1_generate_step0_eos (K : Type) (cfg : GenConfig) (minVal : ℚ)
    (backbone : KVCache K → List Nat → (Nat → ℚ) → KVCache K)
    (stepLogits : Nat → List Row → Logits) (pick : Nat → Logits → Row)
    (textMask : List Bool) (inputIds : List Row) (cache : KVCache K)
    (hmax : 0 < cfg.maxNewToken)
    (hlen : inputIds.length = condLength cfg)
    (hkv : kvSeqLen cache + 1 = condLength cfg)
    (heos : cfg.eosToken ∈ sampledRow cfg stepLogits pick 0 inputIds) :
    ∃ out, generate cfg minVal backbone stepLogits pick textMask inputIds cache = some out ∧
      out.finished = true ∧ out.newIds = [] ∧ out.audioInputIds = inputIds := by
  obtain ⟨n, hn⟩ : ∃ n, cfg.maxNewToken = n + 1 := ⟨cfg.maxNewToken - 1, by omega⟩
  have hany : (sampledRow cfg stepLogits pick 0 inputIds).any (fun v => v == cfg.eosToken)
      = true := List.any_eq_true.mpr ⟨cfg.eosToken, heos, by simp⟩
  refine ⟨⟨[], inputIds, backbone cache [kvSeqLen cache]
      (fun p => makeStreamingChunkMask (kvSeqLen cache) textMask cfg.reservedLen 50
        cfg.textChunkSize 1 true 1 minVal p), true⟩, ?_, rfl, rfl, rfl⟩
  have hstep : genStep cfg minVal backbone stepLogits pick textMask 0 ⟨inputIds, cache, false⟩
      = some (⟨inputIds, backbone cache [kvSeqLen cache]
          (fun p => makeStreamingChunkMask (kvSeqLen cache) textMask cfg.reservedLen 50
            cfg.textChunkSize 1 true 1 minVal p), true⟩, true) := by
    simp only [genStep]
    rw [if_neg (show ¬ (inputIds.length ≠ kvSeqLen cache + 1) by omega)]
    simp [hany]
  simp only [generate, hn, genLoop, hstep]
  have hdrop : inputIds.drop (condLength cfg) = [] :=
    List.drop_eq_nil_of_le (le_of_eq hlen)
  simp [hdrop]

/-- C1 witness: a concrete session (no speaker embedding, reserved
length `0`, `condition_length = 2`) whose sampler returns the eos
row immediately. -/
theorem c1_generate_step0_eos_witness :
    ∃ out, generate (K := Int)
        ⟨0, false, 0, 1, 7, false, 0, 3⟩ (-1000)
        (fun c _ _ => c.map fun kv => (kv.1 ++ [0], kv.2 ++ [0]))
        (fun _ _ => [[(0 : WithBot ℚ)]]) (fun _ _ => [7]) []
        [[0], [0]] [([5], [6])] = some out ∧
      out.finished = true ∧ out.newIds = [] ∧ out.audioInputIds = [[0], [0]] := by
  exact c1_generate_step0_eos Int ⟨0, false, 0, 1, 7, false, 0, 3⟩ (-1000)
    (fun c _ _ => c.map fun kv => (kv.1 ++ [0], kv.2 ++ [0]))
    (fun _ _ => [[(0 : WithBot ℚ)]]) (fun _ _ => [7]) []
    [[0], [0]] [([5], [6])] (by norm_num) (by simp [condLength]) (by simp [condLength, kvSeqLen])
    (by simp [sampledRow])

/-! ### Claim C6: the forced eos logit cannot be sampled -/

/-- Entry `e` of a row after `row.set e ⊥` is `⊥` whenever `e` is in
range. -/
lemma maskEosRow_getD_eos (e : Nat) (row : List (WithBot ℚ)) (he : e < row.length) :
    (maskEosRow e row).getD e ⊥ = ⊥ := by
  rw [maskEosRow, List.getD_eq_getElem _ _ (by simpa using he)]
  simp [List.getElem_set]

/-- After `maskEos`, the eos entry of every codebook row reads `⊥`
(rows beyond the logits matrix read the empty row, whose entries also
default to `⊥`). -/
lemma maskEos_getD_eos (e : Nat) (z : Logits) (hv : ∀ row ∈ z, e < row.length) (q : Nat) :
    ((maskEos e z).getD q []).getD e ⊥ = ⊥ := by
  have hmap : (maskEos e z).getD q [] = maskEosRow e (z.getD q []) := by
    by_cases hq : q < z.length
    · rw [List.getD_eq_getElem _ _ (by simpa [maskEos] using hq), List.getD_eq_getElem _ _ hq]
      simp [maskEos]
    · rw [List.getD_eq_default _ _ (by simpa [maskEos] using not_lt.mp hq),
        List.getD_eq_default _ _ (not_lt.mp hq)]
      rfl
  rw [hmap]
  by_cases hq : q < z.length
  · exact maskEosRow_getD_eos e _ (hv _ (List.getD_eq_getElem z [] hq ▸ List.getElem_mem hq))
  · rw [List.getD_eq_default _ _ (not_lt.mp hq)]
    rfl

/-- Rows keep their length under `maskEos` (a `set` does not change
lengths). -/
lemma maskEos_rows_length (e : Nat) (z : Logits) (hv : ∀ row ∈ z, e < row.length) :
    ∀ row ∈ maskEos e z, e < row.length := by
  intro row hrow
  obtain ⟨r0, hr0, rfl⟩ := List.mem_map.mp hrow
  simpa [maskEosRow] using hv r0 hr0

/-- When step `i` is below `min_new_token` or `force_no_stop` is set,
the eos entry of every post-masking codebook row is `⊥`. -/
lemma stepLogitsMasked_eos_bot (cfg : GenConfig) (stepLogits : Nat → List Row → Logits)
    (i : Nat) (ids : List Row)
    (hcond : i < cfg.minNewToken ∨ cfg.forceNoStop = true)
    (hvocab : ∀ row ∈ stepLogits i ids, cfg.eosToken < row.length) (q : Nat) :
    ((stepLogitsMasked cfg stepLogits i ids).getD q []).getD cfg.eosToken ⊥ = ⊥ := by
  simp only [stepLogitsMasked]
  cases hf : cfg.forceNoStop with
  | true =>
      rw [if_pos rfl]
      by_cases hi : i < cfg.minNewToken
      · rw [if_pos hi]
        exact maskEos_getD_eos _ _ (maskEos_rows_length _ _ hvocab) q
      · rw [if_neg hi]
        exact maskEos_getD_eos _ _ hvocab q
  | false =>
      rw [if_neg (by simp)]
      have hi : i < cfg.minNewToken := by
        rcases hcond with h | h
        · exact h
        · rw [hf] at h; exact absurd h (by simp)
      rw [if_pos hi]
      exact maskEos_getD_eos _ _ hvocab q

/-- Multinomial sampling contract at a specific logits input: after
`F.softmax`, an entry has probability `0` exactly when its logit is
`-inf` (`⊥`), and `torch.multinomial` never returns a zero-probability
index — so in each codebook `q` the picked index has a non-`⊥` logit. -/
def PickPositiveAt (pick : Nat → Logits → Row) (i : Nat) (lo : Logits) : Prop :=
  ∀ q, q < (pick i lo).length →
    (lo.getD q []).getD ((pick i lo).getD q 0) ⊥ ≠ ⊥

/-- C6: at every step `i` with `i < min_new_token`, and at every step
when `force_no_stop` is set, the eos logit is forced to `-inf` before
softmax/multinomial, so the sampled row contains `eos_token` in no
codebook — and consequently such a `genStep` leaves the `finish` flag
unchanged. -/
theorem c6_eos_unsampleable (K : Type) (cfg : GenConfig) (minVal : ℚ)
    (backbone : KVCache K → List Nat → (Nat → ℚ) → KVCache K)
    (stepLogits : Nat → List Row → Logits) (pick : Nat → Logits → Row)
    (textMask : List Bool) (i : Nat) (st : GenState K)
    (hcond : i < cfg.minNewToken ∨ cfg.forceNoStop = true)
    (hpick : PickPositiveAt pick i (stepLogitsMasked cfg stepLogits i st.ids))
    (hvocab : ∀ row ∈ stepLogits i st.ids, cfg.eosToken < row.length) :
    cfg.eosToken ∉ sampledRow cfg stepLogits pick i st.ids ∧
      ∀ st1 brk, genStep cfg minVal backbone stepLogits pick textMask i st = some (st1, brk) →
        st1.finish = st.finish := by
  have hnoeos : cfg.eosToken ∉ sampledRow cfg stepLogits pick i st.ids := by
    intro hmem
    obtain ⟨⟨q, hq⟩, hget⟩ := List.mem_iff_get.mp hmem
    have hqd : (sampledRow cfg stepLogits pick i st.ids).getD q 0 = cfg.eosToken := by
      rw [List.getD_eq_getElem _ _ hq]
      simpa [List.get_eq_getElem] using hget
    have := hpick q (by simpa [sampledRow] using hq)
    rw [show (pick i (stepLogitsMasked cfg stepLogits i st.ids)).getD q 0
        = cfg.eosToken from hqd] at this
    exact this (stepLogitsMasked_eos_bot cfg stepLogits i st.ids hcond hvocab q)
  refine ⟨hnoeos, ?_⟩
  intro st1 brk h
  have hany : (sampledRow cfg stepLogits pick i st.ids).any (fun v => v == cfg.eosToken)
      = false := by
    rw [List.any_eq_false]
    intro v hv
    simp only [beq_iff_eq]
    exact fun he => hnoeos (he ▸ hv)
  simp only [genStep] at h
  split at h
  · exact absurd h (by simp)
  · rw [hany, Bool.or_false] at h
    split at h <;>
      (simp only [Option.some.injEq, Prod.mk.injEq] at h; rw [← h.1])

/-- C6 witness: a concrete step with `force_no_stop` set; the masked
logits leave only index `1` samplable and the picked row is `[1]`,
which avoids the eos token `0`, leaving `finish` unchanged. -/
theorem c6_eos_unsampleable_witness :
    (0 : Nat) ∉ sampledRow ⟨0, false, 0, 1, 0, true, 0, 3⟩
        (fun _ _ => [[(5 : WithBot ℚ), 6]]) (fun _ _ => [1]) 0 [[0], [0]] ∧
      ∀ st1 brk, genStep (K := Int) ⟨0, false, 0, 1, 0, true, 0, 3⟩ (-1000)
          (fun c _ _ => c.map fun kv => (kv.1 ++ [0], kv.2 ++ [0]))
          (fun _ _ => [[(5 : WithBot ℚ), 6]]) (fun _ _ => [1]) [] 0
          ⟨[[0], [0]], [([5], [6])], false⟩ = some (st1, brk) →
        st1.finish = (⟨[[0], [0]], [([5], [6])], false⟩ : GenState Int).finish := by
  exact c6_eos_unsampleable Int ⟨0, false, 0, 1, 0, true, 0, 3⟩ (-1000)
    (fun c _ _ => c.map fun kv => (kv.1 ++ [0], kv.2 ++ [0]))
    (fun _ _ => [[(5 : WithBot ℚ), 6]]) (fun _ _ => [1]) [] 0
    ⟨[[0], [0]], [([5], [6])], false⟩ (Or.inr rfl)
    (by
      intro q hq
      have hq0 : q = 0 := by simpa using hq
      subst hq0
      decide)
    (by intro row hrow; simp at hrow; simp [hrow])

/-! ### Claim C9: the frame effect of prefill_text -/

/-- `setSliceChecked xs a b ys` for an in-bounds span of exactly
`ys.length` positions: succeeds, keeps the length, rewrites exactly the
span `[a, b)` with `ys`, and leaves everything else unchanged. -/
lemma setSliceChecked_spec {α : Type} (xs ys : List α) (a b : Nat)
    (hab : a ≤ b) (hb : b ≤ xs.length) (hlen : ys.length = b - a) :
    ∃ out, setSliceChecked xs a b ys = some out ∧ out.length = xs.length ∧
      (∀ j d, j < a ∨ b ≤ j → out.getD j d = xs.getD j d) ∧
      (∀ j d, j < b - a → out.getD (a + j) d = ys.getD j d) := by
  have hma : min a xs.length = a := min_eq_left (by omega)
  have hmb : min b xs.length = b := min_eq_left hb
  refine ⟨xs.mapIdx fun p x => if a ≤ p ∧ p < b then ys.getD (p - a) x else x,
    ?_, ?_, ?_, ?_⟩
  · simp only [setSliceChecked, hma, hmb]
    rw [if_pos (by omega)]
  · simp [List.length_mapIdx]
  · intro j d hj
    by_cases hjl : j < xs.length
    · rw [getD_mapIdx _ _ _ _ d hjl, if_neg (by omega)]
    · rw [List.getD_eq_default _ _ (by simpa [List.length_mapIdx] using not_lt.mp hjl),
        List.getD_eq_default _ _ (not_lt.mp hjl)]
  · intro j d hj
    have hlt : a + j < xs.length := by omega
    rw [getD_mapIdx _ _ _ _ d hlt, if_pos (by omega)]
    have hy : a + j - a = j := by omega
    rw [hy]
    have hyr : j < ys.length := by omega
    rw [List.getD_eq_getElem _ _ hyr, List.getD_eq_getElem _ _ hyr]

/-- Reading back the span `[p0, p0 + m)` of a list of the form
`pre ++ ext` with `pre.length = p0` and `ext.length = m` yields `ext`:
the slice copied out of the backbone's updated clone is exactly the
newly appended entries. -/
lemma pyExtract_append {α : Type} (pre ext : List α) (p0 m : Nat)
    (hpre : pre.length = p0) (hext : ext.length = m) :
    pyExtract (pre ++ ext) p0 (p0 + m) = ext := by
  simp only [pyExtract]
  rw [List.take_append_eq_append_take, List.take_of_length_le (by omega),
    List.take_of_length_le (by omega), ← hpre, List.drop_left]

/-- The last element of `position_ids = torch.arange(p0, p0 + m)`. -/
lemma range'_getLastD (p0 m : Nat) (hm : 0 < m) :
    (List.range' p0 m).getLastD 0 = p0 + m - 1 := by
  obtain ⟨k, rfl⟩ : ∃ k, m = k + 1 := ⟨m - 1, by omega⟩
  have h := @List.range'_concat 1 p0 k
  simp only [one_mul] at h
  rw [h]
  simp

/-- The layer-by-layer copy loop succeeds when each layer's slice
assignment succeeds, and its output is the per-layer results. -/
lemma spliceLayers_spec {K : Type} (a b : Nat) :
    ∀ (cache updated : KVCache K),
      cache.length ≤ updated.length →
      (∀ l, l < cache.length →
        (setSliceChecked (cache.getD l ([], [])).1 a b
            (pyExtract (updated.getD l ([], [])).1 a b)).isSome ∧
        (setSliceChecked (cache.getD l ([], [])).2 a b
            (pyExtract (updated.getD l ([], [])).2 a b)).isSome) →
      ∃ out, spliceLayers cache updated a b = some out ∧ out.length = cache.length ∧
        ∀ l, l < cache.length →
          setSliceChecked (cache.getD l ([], [])).1 a b
              (pyExtract (updated.getD l ([], [])).1 a b) = some (out.getD l ([], [])).1 ∧
          setSliceChecked (cache.getD l ([], [])).2 a b
              (pyExtract (updated.getD l ([], [])).2 a b) = some (out.getD l ([], [])).2 := by
  intro cache
  induction cache with
  | nil =>
      intro updated _ _
      exact ⟨[], rfl, rfl, fun l hl => absurd hl (by simp)⟩
  | cons ckv crest ih =>
      intro updated hlen hok
      match updated with
      | [] => simp at hlen
      | ukv :: urest =>
          obtain ⟨hk0, hv0⟩ := hok 0 (by simp)
          obtain ⟨k0, hk0'⟩ := Option.isSome_iff_exists.mp hk0
          obtain ⟨v0, hv0'⟩ := Option.isSome_iff_exists.mp hv0
          obtain ⟨rest, hrest, hrlen, hrspec⟩ := ih urest (by simpa using hlen)
            (fun l hl => by simpa using hok (l + 1) (by simpa using hl))
          refine ⟨(k0, v0) :: rest, ?_, by simpa using hrlen, ?_⟩
          · simp only [spliceLayers]
            simp only [List.getD_cons_zero] at hk0' hv0'
            rw [hk0', hv0', hrest]
            rfl
          · intro l hl
            cases l with
            | zero => simpa using ⟨hk0', hv0'⟩
            | succ l' =>
                have := hrspec l' (by simpa using hl)
                simpa using this

/-- Full specification of `prefill_text` under the documented protocol:
`position_ids` is the contiguous range `p0, ..., p0 + m - 1` aligned
inside the pre-allocated cache (`p0 + m` within every layer's
capacity), and the backbone appends exactly `m` entries (`extK l`,
`extV l`) to the cloned prefix of each layer `l`.  Then `prefill_text`
succeeds, every layer keeps its capacity, slots `p0 .. p0 + m - 1` of
layer `l` are overwritten with `extK l` / `extV l`, and every slot
outside that span is unchanged. -/
lemma prefill_text_spec {K : Type}
    (backbone : KVCache K → List Nat → (Nat → ℚ) → KVCache K)
    (cache : KVCache K) (p0 m : Nat) (extK extV : Nat → List K)
    (hm : 0 < m)
    (hcap : ∀ l, l < cache.length →
      p0 + m ≤ (cache.getD l ([], [])).1.length ∧ p0 + m ≤ (cache.getD l ([], [])).2.length)
    (hBlen : cache.length ≤
      (backbone (cache.map fun kv => (kv.1.take p0, kv.2.take p0)) (List.range' p0 m)
        (fun _ => 0)).length)
    (hB : ∀ l, l < cache.length →
      (backbone (cache.map fun kv => (kv.1.take p0, kv.2.take p0)) (List.range' p0 m)
          (fun _ => 0)).getD l ([], []) =
        ((cache.getD l ([], [])).1.take p0 ++ extK l,
         (cache.getD l ([], [])).2.take p0 ++ extV l) ∧
      (extK l).length = m ∧ (extV l).length = m) :
    ∃ out, prefill_text backbone (List.range' p0 m) cache = some out ∧
      out.length = cache.length ∧
      ∀ l, l < cache.length →
        (out.getD l ([], [])).1.length = (cache.getD l ([], [])).1.length ∧
        (out.getD l ([], [])).2.length = (cache.getD l ([], [])).2.length ∧
        (∀ j d, j < p0 ∨ p0 + m ≤ j →
          (out.getD l ([], [])).1.getD j d = (cache.getD l ([], [])).1.getD j d ∧
          (out.getD l ([], [])).2.getD j d = (cache.getD l ([], [])).2.getD j d) ∧
        (∀ j d, j < m →
          (out.getD l ([], [])).1.getD (p0 + j) d = (extK l).getD j d ∧
          (out.getD l ([], [])).2.getD (p0 + j) d = (extV l).getD j d) := by
  obtain ⟨k, hk⟩ : ∃ k, m = k + 1 := ⟨m - 1, by omega⟩
  have hrange : List.range' p0 m = p0 :: List.range' (p0 + 1) k := by
    rw [hk]; exact List.range'_succ p0 k 1
  have hlast : (List.range' p0 m).getLastD 0 + 1 = p0 + m := by
    rw [range'_getLastD p0 m hm]; omega
  -- per-layer slice assignments succeed
  have hslice : ∀ l, l < cache.length →
      ∃ ok ov,
        setSliceChecked (cache.getD l ([], [])).1 p0 (p0 + m)
            (pyExtract ((backbone (cache.map fun kv => (kv.1.take p0, kv.2.take p0))
              (List.range' p0 m) (fun _ => 0)).getD l ([], [])).1 p0 (p0 + m)) = some ok ∧
        setSliceChecked (cache.getD l ([], [])).2 p0 (p0 + m)
            (pyExtract ((backbone (cache.map fun kv => (kv.1.take p0, kv.2.take p0))
              (List.range' p0 m) (fun _ => 0)).getD l ([], [])).2 p0 (p0 + m)) = some ov ∧
        ok.length = (cache.getD l ([], [])).1.length ∧
        ov.length = (cache.getD l ([], [])).2.length ∧
        (∀ j d, j < p0 ∨ p0 + m ≤ j →
          ok.getD j d = (cache.getD l ([], [])).1.getD j d ∧
          ov.getD j d = (cache.getD l ([], [])).2.getD j d) ∧
        (∀ j d, j < m →
          ok.getD (p0 + j) d = (extK l).getD j d ∧
          ov.getD (p0 + j) d = (extV l).getD j d) := by
    intro l hl
    obtain ⟨hc1, hc2⟩ := hcap l hl
    obtain ⟨hBl, hKlen, hVlen⟩ := hB l hl
    have hXk : pyExtract ((backbone (cache.map fun kv => (kv.1.take p0, kv.2.take p0))
        (List.range' p0 m) (fun _ => 0)).getD l ([], [])).1 p0 (p0 + m) = extK l := by
      rw [hBl]
      exact pyExtract_append _ _ _ _ (List.length_take_of_le (by omega)) hKlen
    have hXv : pyExtract ((backbone (cache.map fun kv => (kv.1.take p0, kv.2.take p0))
        (List.range' p0 m) (fun _ => 0)).getD l ([], [])).2 p0 (p0 + m) = extV l := by
      rw [hBl]
      exact pyExtract_append _ _ _ _ (List.length_take_of_le (by omega)) hVlen
    obtain ⟨ok, hok, hoklen, hokout, hokin⟩ :=
      setSliceChecked_spec (cache.getD l ([], [])).1 (extK l) p0 (p0 + m)
        (by omega) (hcap l hl).1 (by omega)
    obtain ⟨ov, hov, hovlen, hovout, hovin⟩ :=
      setSliceChecked_spec (cache.getD l ([], [])).2 (extV l) p0 (p0 + m)
        (by omega) (hcap l hl).2 (by omega)
    rw [hXk, hXv]
    exact ⟨ok, ov, hok, hov, hoklen, hovlen,
      fun j d hj => ⟨hokout j d hj, hovout j d hj⟩,
      fun j d hj => ⟨hokin j d (by omega), hovin j d (by omega)⟩⟩
  obtain ⟨out, hout, houtlen, hspec⟩ :=
    spliceLayers_spec p0 (p0 + m) cache
      (backbone (cache.map fun kv => (kv.1.take p0, kv.2.take p0)) (List.range' p0 m)
        (fun _ => 0))
      hBlen
      (fun l hl => by
        obtain ⟨ok, ov, hok, hov, -⟩ := hslice l hl
        exact ⟨by rw [hok]; rfl, by rw [hov]; rfl⟩)
  refine ⟨out, ?_, houtlen, ?_⟩
  · rw [hrange]
    simp only [prefill_text]
    rw [← hrange, hlast]
    exact hout
  · intro l hl
    obtain ⟨ok, ov, hok, hov, hoklen, hovlen, hunch, hin⟩ := hslice l hl
    obtain ⟨hk', hv'⟩ := hspec l hl
    rw [hok] at hk'
    rw [hov] at hv'
    have hkeq : (out.getD l ([], [])).1 = ok := by injection hk' with h; exact h.symm
    have hveq : (out.getD l ([], [])).2 = ov := by injection hv' with h; exact h.symm
    rw [hkeq, hveq]
    exact ⟨hoklen, hovlen, fun j d hj => hunch j d hj, fun j d hj => hin j d hj⟩

/-- C9: for a `prefill_text` call with contiguous monotonically
increasing `position_ids` (`p0, ..., p0 + m - 1`) fitting in the
pre-allocated cache, exactly the cache slots `p0 .. p0 + m - 1` of
every layer's keys and values are overwritten (with the backbone's
newly produced entries for the span), and every slot outside that span
is left unchanged. -/
theorem c9_prefill_text_frame (K : Type)
    (backbone : KVCache K → List Nat → (Nat → ℚ) → KVCache K)
    (positionIds : List Nat) (cache : KVCache K) (p0 m : Nat) (extK extV : Nat → List K)
    (hpos : positionIds = List.range' p0 m) (hm : 0 < m)
    (hcap : ∀ l, l < cache.length →
      p0 + m ≤ (cache.getD l ([], [])).1.length ∧ p0 + m ≤ (cache.getD l ([], [])).2.length)
    (hBlen : cache.length ≤
      (backbone (cache.map fun kv => (kv.1.take p0, kv.2.take p0)) (List.range' p0 m)
        (fun _ => 0)).length)
    (hB : ∀ l, l < cache.length →
      (backbone (cache.map fun kv => (kv.1.take p0, kv.2.take p0)) (List.range' p0 m)
          (fun _ => 0)).getD l ([], []) =
        ((cache.getD l ([], [])).1.take p0 ++ extK l,
         (cache.getD l ([], [])).2.take p0 ++ extV l) ∧
      (extK l).length = m ∧ (extV l).length = m) :
    ∃ out, prefill_text backbone positionIds cache = some out ∧
      out.length = cache.length ∧
      ∀ l, l < cache.length →
        (out.getD l ([], [])).1.length = (cache.getD l ([], [])).1.length ∧
        (out.getD l ([], [])).2.length = (cache.getD l ([], [])).2.length ∧
        (∀ j d, j < p0 ∨ p0 + m ≤ j →
          (out.getD l ([], [])).1.getD j d = (cache.getD l ([], [])).1.getD j d ∧
          (out.getD l ([], [])).2.getD j d = (cache.getD l ([], [])).2.getD j d) ∧
        (∀ j d, j < m →
          (out.getD l ([], [])).1.getD (p0 + j) d = (extK l).getD j d ∧
          (out.getD l ([], [])).2.getD (p0 + j) d = (extV l).getD j d) := by
  subst hpos
  exact prefill_text_spec backbone cache p0 m extK extV hm hcap hBlen hB

/-- C9 witness: one layer of capacity `3`, span `[1, 2)`; the backbone
appends `99`/`88` to the cloned prefix and exactly slot `1` is
overwritten. -/
theorem c9_prefill_text_frame_witness :
    (0 : Nat) < 1 ∧
      ∃ out, prefill_text (K := Int)
          (fun c _ _ => c.map fun kv => (kv.1 ++ [99], kv.2 ++ [88]))
          (List.range' 1 1) [([10, 11, 12], [20, 21, 22])] = some out ∧
        out.length = 1 ∧
        ∀ l, l < ([([10, 11, 12], [20, 21, 22])] : KVCache Int).length →
          (out.getD l ([], [])).1.length
              = (([([10, 11, 12], [20, 21, 22])] : KVCache Int).getD l ([], [])).1.length ∧
          (out.getD l ([], [])).2.length
              = (([([10, 11, 12], [20, 21, 22])] : KVCache Int).getD l ([], [])).2.length ∧
          (∀ j d, j < 1 ∨ 1 + 1 ≤ j →
            (out.getD l ([], [])).1.getD j d
                = (([([10, 11, 12], [20, 21, 22])] : KVCache Int).getD l ([], [])).1.getD j d ∧
            (out.getD l ([], [])).2.getD j d
                = (([([10, 11, 12], [20, 21, 22])] : KVCache Int).getD l ([], [])).2.getD j d) ∧
          (∀ j d, j < 1 →
            (out.getD l ([], [])).1.getD (1 + j) d = ([99] : List Int).getD j d ∧
            (out.getD l ([], [])).2.getD (1 + j) d = ([88] : List Int).getD j d) := by
  refine ⟨by norm_num, ?_⟩
  have hcap : ∀ l, l < ([([10, 11, 12], [20, 21, 22])] : KVCache Int).length →
      1 + 1 ≤ (([([10, 11, 12], [20, 21, 22])] : KVCache Int).getD l ([], [])).1.length ∧
      1 + 1 ≤ (([([10, 11, 12], [20, 21, 22])] : KVCache Int).getD l ([], [])).2.length := by
    intro l hl
    have hl0 : l = 0 := by simpa using hl
    subst hl0
    decide
  have hB : ∀ l, l < ([([10, 11, 12], [20, 21, 22])] : KVCache Int).length →
      ((fun (c : KVCache Int) (_ : List Nat) (_ : Nat → ℚ) =>
          c.map fun kv => (kv.1 ++ [99], kv.2 ++ [88]))
        (([([10, 11, 12], [20, 21, 22])] : KVCache Int).map
          fun kv => (kv.1.take 1, kv.2.take 1)) (List.range' 1 1)
        (fun _ => 0)).getD l ([], []) =
        ((([([10, 11, 12], [20, 21, 22])] : KVCache Int).getD l ([], [])).1.take 1 ++ [99],
         (([([10, 11, 12], [20, 21, 22])] : KVCache Int).getD l ([], [])).2.take 1 ++ [88]) ∧
      ([99] : List Int).length = 1 ∧ ([88] : List Int).length = 1 := by
    intro l hl
    have hl0 : l = 0 := by simpa using hl
    subst hl0
    exact ⟨by decide, rfl, rfl⟩
  exact c9_prefill_text_frame Int
    (fun c _ _ => c.map fun kv => (kv.1 ++ [99], kv.2 ++ [88]))
    (List.range' 1 1) [([10, 11, 12], [20, 21, 22])] 1 1 (fun _ => [99]) (fun _ => [88])
    rfl (by norm_num) hcap (by decide) hB

/-! ### Claim C7: prefill_audio_ids position ids and cache extension -/

/-- C7: a `prefill_audio_ids` call on a cache of filled length `L` with
`n` audio positions plus one optional audio-bos position (`m` positions
total) passes to the backbone exactly the contiguous increasing
position ids `L, L+1, ..., L+m-1`, and (by the backbone's cache-append
contract) the returned cache extends every layer by exactly `m`
positions. -/
theorem c7_prefill_audio_ids_positions (K : Type)
    (backbone : KVCache K → List Nat → (Nat → ℚ) → KVCache K)
    (reservedLen textChunkSize : Nat) (minVal : ℚ)
    (inputIds : List Row) (cache : KVCache K) (textMask : List Bool) (addAudioBos : Bool)
    (hB : BackboneAppends backbone) :
    ((prefillAudioPositionIds cache inputIds.length addAudioBos).length
        = inputIds.length + (if addAudioBos then 1 else 0) ∧
      (∀ j, j < inputIds.length + (if addAudioBos then 1 else 0) →
        (prefillAudioPositionIds cache inputIds.length addAudioBos).get? j
          = some (kvSeqLen cache + j))) ∧
    ((prefill_audio_ids backbone reservedLen textChunkSize minVal inputIds cache textMask
        addAudioBos).length = cache.length ∧
      ∀ l, l < cache.length →
        ((prefill_audio_ids backbone reservedLen textChunkSize minVal inputIds cache textMask
            addAudioBos).getD l ([], [])).1.length
          = (cache.getD l ([], [])).1.length
              + (inputIds.length + (if addAudioBos then 1 else 0)) ∧
        ((prefill_audio_ids backbone reservedLen textChunkSize minVal inputIds cache textMask
            addAudioBos).getD l ([], [])).2.length
          = (cache.getD l ([], [])).2.length
              + (inputIds.length + (if addAudioBos then 1 else 0))) := by
  constructor
  · constructor
    · simp [prefillAudioPositionIds]
    · intro j hj
      simp only [prefillAudioPositionIds]
      rw [List.get?_eq_getElem?]
      have := List.getElem?_range' (kvSeqLen cache) 1 (m := j)
        (n := inputIds.length + (if addAudioBos then 1 else 0)) hj
      simpa using this
  · simp only [prefill_audio_ids]
    obtain ⟨h1, h2⟩ := hB cache (prefillAudioPositionIds cache inputIds.length addAudioBos)
      (fun p => makeStreamingChunkMask (kvSeqLen cache) textMask reservedLen 50 textChunkSize
        1 true (inputIds.length + (if addAudioBos then 1 else 0)) minVal p)
    refine ⟨h1, ?_⟩
    intro l hl
    obtain ⟨ek, ev, hek, hev, heq⟩ := h2 l hl
    rw [heq]
    have hplen : (prefillAudioPositionIds cache inputIds.length addAudioBos).length
        = inputIds.length + (if addAudioBos then 1 else 0) := by
      simp [prefillAudioPositionIds]
    constructor
    · simp only [List.length_append]
      rw [hek, hplen]
    · simp only [List.length_append]
      rw [hev, hplen]

/-- C7 witness: one layer of filled length `1`, one audio id plus the
audio-bos position (`m = 2`): position ids are `[1, 2]` and the layer
grows from `1` to `3`. -/
theorem c7_prefill_audio_ids_positions_witness :
    (prefillAudioPositionIds (K := Int) [([5], [6])] 1 true).get? 0 = some 1 ∧
      (prefillAudioPositionIds (K := Int) [([5], [6])] 1 true).get? 1 = some 2 ∧
      ((prefill_audio_ids (K := Int)
          (fun c pids _ => c.map fun kv =>
            (kv.1 ++ pids.map fun _ => 0, kv.2 ++ pids.map fun _ => 0))
          7 2 (-1000) [[0]] [([5], [6])] [] true).getD 0 ([], [])).1.length = 3 := by
  have hB : BackboneAppends (K := Int)
      (fun c pids _ => c.map fun kv =>
        (kv.1 ++ pids.map fun _ => 0, kv.2 ++ pids.map fun _ => 0)) := by
    intro c pids mask
    constructor
    · simp
    · intro l hl
      refine ⟨pids.map fun _ => 0, pids.map fun _ => 0, by simp, by simp, ?_⟩
      rw [List.getD_eq_getElem _ _ (by simpa using hl), List.getD_eq_getElem _ _ hl]
      simp
  have h := c7_prefill_audio_ids_positions Int
    (fun c pids _ => c.map fun kv =>
      (kv.1 ++ pids.map fun _ => 0, kv.2 ++ pids.map fun _ => 0))
    7 2 (-1000) [[0]] [([5], [6])] [] true hB
  refine ⟨?_, ?_, ?_⟩
  · have := h.1.2 0 (by norm_num)
    simpa [kvSeqLen] using this
  · have := h.1.2 1 (by norm_num)
    simpa [kvSeqLen] using this
  · have := (h.2.2 0 (by norm_num)).1
    simpa using this

/-! ### Claim C8: hitting max_new_token is not an error -/

/-- `headD` is `getD 0`. -/
lemma headD_eq_getD {α : Type} (l : List α) (d : α) : l.headD d = l.getD 0 d := by
  cases l <;> rfl

/-- Under the backbone append contract, a forward pass over `pids`
advances the cache sequence length by `pids.length`. -/
lemma kvSeqLen_backbone {K : Type} (backbone : KVCache K → List Nat → (Nat → ℚ) → KVCache K)
    (hB : BackboneAppends backbone) (c : KVCache K) (pids : List Nat) (mask : Nat → ℚ)
    (hne : c ≠ []) :
    kvSeqLen (backbone c pids mask) = kvSeqLen c + pids.length := by
  obtain ⟨h1, h2⟩ := hB c pids mask
  obtain ⟨ek, ev, hek, hev, heq⟩ := h2 0 (List.length_pos.mpr hne)
  simp only [kvSeqLen, headD_eq_getD, heq]
  simp [hek]

/-- Under the backbone append contract, a forward pass keeps the cache
non-empty. -/
lemma backbone_ne_nil {K : Type} (backbone : KVCache K → List Nat → (Nat → ℚ) → KVCache K)
    (hB : BackboneAppends backbone) (c : KVCache K) (pids : List Nat) (mask : Nat → ℚ)
    (hne : c ≠ []) : backbone c pids mask ≠ [] := by
  have h1 := (hB c pids mask).1
  intro h
  rw [h] at h1
  exact hne (List.length_eq_zero.mp (by simpa using h1.symm))

/-- Loop invariant of `generate` when the sampler never returns the eos
token: every iteration passes the alignment assert, appends one row,
and leaves `finish` false. -/
lemma genLoop_no_eos {K : Type} (cfg : GenConfig) (minVal : ℚ)
    (backbone : KVCache K → List Nat → (Nat → ℚ) → KVCache K)
    (stepLogits : Nat → List Row → Logits) (pick : Nat → Logits → Row)
    (textMask : List Bool)
    (hB : BackboneAppends backbone)
    (hnoeos : ∀ i lo v, v ∈ pick i lo → v ≠ cfg.eosToken) :
    ∀ fuel i st, st.finish = false → st.cache ≠ [] →
      st.ids.length = kvSeqLen st.cache + 1 →
      ∃ st', genLoop cfg minVal backbone stepLogits pick textMask fuel i st = some st' ∧
        st'.finish = false ∧ st'.ids.length = st.ids.length + fuel := by
  intro fuel
  induction fuel with
  | zero =>
      intro i st hfin _ _
      exact ⟨st, rfl, hfin, by omega⟩
  | succ fuel ih =>
      intro i st hfin hne halign
      have hany : (sampledRow cfg stepLogits pick i st.ids).any (fun v => v == cfg.eosToken)
          = false := by
        rw [List.any_eq_false]
        intro v hv
        simp only [beq_iff_eq]
        exact hnoeos i _ v hv
      have hstep : genStep cfg minVal backbone stepLogits pick textMask i st
          = some (⟨st.ids ++ [sampledRow cfg stepLogits pick i st.ids],
              backbone st.cache [kvSeqLen st.cache]
                (fun p => makeStreamingChunkMask (kvSeqLen st.cache) textMask cfg.reservedLen 50
                  cfg.textChunkSize 1 true 1 minVal p), false⟩, false) := by
        simp only [genStep]
        rw [if_neg (show ¬ st.ids.length ≠ kvSeqLen st.cache + 1 by omega)]
        rw [hfin, hany]
        simp
      simp only [genLoop, hstep]
      have hne1 : backbone st.cache [kvSeqLen st.cache]
          (fun p => makeStreamingChunkMask (kvSeqLen st.cache) textMask cfg.reservedLen 50
            cfg.textChunkSize 1 true 1 minVal p) ≠ [] :=
        backbone_ne_nil backbone hB st.cache _ _ hne
      have hkv1 : kvSeqLen (backbone st.cache [kvSeqLen st.cache]
          (fun p => makeStreamingChunkMask (kvSeqLen st.cache) textMask cfg.reservedLen 50
            cfg.textChunkSize 1 true 1 minVal p)) = kvSeqLen st.cache + 1 := by
        rw [kvSeqLen_backbone backbone hB st.cache _ _ hne]
        simp
      obtain ⟨st', hst', hfin', hlen'⟩ := ih (i + 1)
        ⟨st.ids ++ [sampledRow cfg stepLogits pick i st.ids],
          backbone st.cache [kvSeqLen st.cache]
            (fun p => makeStreamingChunkMask (kvSeqLen st.cache) textMask cfg.reservedLen 50
              cfg.textChunkSize 1 true 1 minVal p), false⟩
        rfl hne1 (by simp only [List.length_append, List.length_cons, List.length_nil]; omega)
      refine ⟨st', ?_, hfin', ?_⟩
      · simpa using hst'
      · simp only [List.length_append, List.length_cons, List.length_nil] at hlen'
        omega

/-- C8: a `generate` run in which the sampler never produces
`eos_token` in any codebook executes all `max_new_token` steps and
returns normally (no failed assert): `finished = False`, and `new_ids`
is the whole suffix of the audio-id sequence from `condition_length`
on, with no trailing row removed. -/
theorem c8_max_new_token_incomplete (K : Type) (cfg : GenConfig) (minVal : ℚ)
    (backbone : KVCache K → List Nat → (Nat → ℚ) → KVCache K)
    (stepLogits : Nat → List Row → Logits) (pick : Nat → Logits → Row)
    (textMask : List Bool) (inputIds : List Row) (cache : KVCache K)
    (hB : BackboneAppends backbone)
    (hne : cache ≠ [])
    (halign : inputIds.length = kvSeqLen cache + 1)
    (hnoeos : ∀ i lo v, v ∈ pick i lo → v ≠ cfg.eosToken) :
    ∃ out, generate cfg minVal backbone stepLogits pick textMask inputIds cache = some out ∧
      out.finished = false ∧
      out.audioInputIds.length = inputIds.length + cfg.maxNewToken ∧
      out.newIds = out.audioInputIds.drop (condLength cfg) := by
  obtain ⟨st', hloop, hfin, hlen⟩ :=
    genLoop_no_eos cfg minVal backbone stepLogits pick textMask hB hnoeos
      cfg.maxNewToken 0 ⟨inputIds, cache, false⟩ rfl hne halign
  refine ⟨⟨st'.ids.drop (condLength cfg), st'.ids, st'.cache, st'.finish⟩, ?_, hfin, ?_, rfl⟩
  · simp only [generate, hloop, hfin]
    simp
  · simpa using hlen

/-- C8 witness: two steps sampling row `[1]` against eos token `7`;
the run completes with `finished = false` and `new_ids` the full
generated suffix. -/
theorem c8_max_new_token_incomplete_witness :
    ∃ out, generate (K := Int) ⟨0, false, 0, 1, 7, false, 0, 2⟩ (-1000)
        (fun c pids _ => c.map fun kv =>
          (kv.1 ++ pids.map fun _ => 0, kv.2 ++ pids.map fun _ => 0))
        (fun _ _ => [[(5 : WithBot ℚ), 6]]) (fun _ _ => [1]) []
        [[0], [0]] [([5], [6])] = some out ∧
      out.finished = false ∧
      out.audioInputIds.length = 2 + 2 ∧
      out.newIds = out.audioInputIds.drop (condLength ⟨0, false, 0, 1, 7, false, 0, 2⟩) := by
  have hB : BackboneAppends (K := Int)
      (fun c pids _ => c.map fun kv =>
        (kv.1 ++ pids.map fun _ => 0, kv.2 ++ pids.map fun _ => 0)) := by
    intro c pids mask
    constructor
    · simp
    · intro l hl
      refine ⟨pids.map fun _ => 0, pids.map fun _ => 0, by simp, by simp, ?_⟩
      rw [List.getD_eq_getElem _ _ (by simpa using hl), List.getD_eq_getElem _ _ hl]
      simp
  exact c8_max_new_token_incomplete Int ⟨0, false, 0, 1, 7, false, 0, 2⟩ (-1000)
    (fun c pids _ => c.map fun kv =>
      (kv.1 ++ pids.map fun _ => 0, kv.2 ++ pids.map fun _ => 0))
    (fun _ _ => [[(5 : WithBot ℚ), 6]]) (fun _ _ => [1]) []
    [[0], [0]] [([5], [6])] hB (by simp) (by simp [kvSeqLen])
    (by intro i lo v hv; simp only [List.mem_singleton] at hv; subst hv; decide)

/-! ### Claim C2: cache length versus the progress counter

The claim says the cache sequence length equals the `progress` counter
(the audio-id sequence length).  The loop itself asserts
`progress == past_key_values[0][0].shape[2] + 1` (lines 978-980): the
cache runs exactly one position *behind* the audio-id sequence. -/

/-- All layers of a cache hold keys and values of sequence length `n`. -/
def UniformLen {K : Type} (c : KVCache K) (n : Nat) : Prop :=
  ∀ l, l < c.length → (c.getD l ([], [])).1.length = n ∧ (c.getD l ([], [])).2.length = n

/-- C2, counterexample: a one-step `generate` run ends with cache
sequence length `2` while the audio-id sequence (the `progress`
counter) has length `3` — the code's own assert makes them differ by
one, refuting the claimed equality. -/
theorem c2_cache_progress_counterexample :
    (generate (K := Int) ⟨0, false, 0, 1, 0, false, 0, 1⟩ (-1000)
        (fun c _ _ => c.map fun kv => (kv.1 ++ [0], kv.2 ++ [0]))
        (fun _ _ => [[(5 : WithBot ℚ), 6]]) (fun _ _ => [1]) []
        [[0], [0]] [([5], [6])]).map
      (fun out => (kvSeqLen out.cache, out.audioInputIds.length)) = some (2, 3) ∧
    (2 : Nat) ≠ 3 := by
  exact ⟨rfl, by decide⟩

/-- C2, amended: the cache sequence length stays identical across all
layers, but equals `progress - 1`, one less than the audio-id sequence
length: (a) `prefill_text` leaves every layer's length unchanged (the
pre-allocated capacity); (b) `prefill_audio_ids` extends every layer by
exactly the number of prefilled positions; (c) every step of the
`generate` loop that advances `progress` restores
`cache length = progress - 1` uniformly across layers, exactly as the
loop assert demands on entry to the next step. -/
theorem c2_cache_length_amended (K : Type)
    (backbone : KVCache K → List Nat → (Nat → ℚ) → KVCache K)
    (hB : BackboneAppends backbone) :
    (∀ (cache : KVCache K) (p0 m : Nat) (extK extV : Nat → List K) (n : Nat),
      0 < m → p0 + m ≤ n → UniformLen cache n →
      cache.length ≤
        (backbone (cache.map fun kv => (kv.1.take p0, kv.2.take p0)) (List.range' p0 m)
          (fun _ => 0)).length →
      (∀ l, l < cache.length →
        (backbone (cache.map fun kv => (kv.1.take p0, kv.2.take p0)) (List.range' p0 m)
            (fun _ => 0)).getD l ([], []) =
          ((cache.getD l ([], [])).1.take p0 ++ extK l,
           (cache.getD l ([], [])).2.take p0 ++ extV l) ∧
        (extK l).length = m ∧ (extV l).length = m) →
      ∃ out, prefill_text backbone (List.range' p0 m) cache = some out ∧
        out.length = cache.length ∧ UniformLen out n) ∧
    (∀ (reservedLen textChunkSize : Nat) (minVal : ℚ) (inputIds : List Row)
        (cache : KVCache K) (textMask : List Bool) (addAudioBos : Bool) (n : Nat),
      UniformLen cache n →
      UniformLen (prefill_audio_ids backbone reservedLen textChunkSize minVal inputIds cache
          textMask addAudioBos)
        (n + (inputIds.length + (if addAudioBos then 1 else 0)))) ∧
    (∀ (cfg : GenConfig) (minVal : ℚ) (stepLogits : Nat → List Row → Logits)
        (pick : Nat → Logits → Row) (textMask : List Bool) (i : Nat)
        (st st1 : GenState K) (brk : Bool),
      UniformLen st.cache (st.ids.length - 1) →
      genStep cfg minVal backbone stepLogits pick textMask i st = some (st1, brk) →
      st1.ids.length = st.ids.length + 1 →
      UniformLen st1.cache (st1.ids.length - 1)) := by
  refine ⟨?_, ?_, ?_⟩
  · intro cache p0 m extK extV n hm hpm hu hBlen hBspec
    obtain ⟨out, hout, hlen, hspec⟩ := prefill_text_spec backbone cache p0 m extK extV hm
      (fun l hl => by
        obtain ⟨h1, h2⟩ := hu l hl
        exact ⟨by omega, by omega⟩)
      hBlen hBspec
    refine ⟨out, hout, hlen, ?_⟩
    intro l hl
    rw [hlen] at hl
    obtain ⟨hk, hv, -, -⟩ := hspec l hl
    obtain ⟨h1, h2⟩ := hu l hl
    exact ⟨by omega, by omega⟩
  · intro reservedLen textChunkSize minVal inputIds cache textMask addAudioBos n hu
    simp only [prefill_audio_ids]
    obtain ⟨h1, h2⟩ := hB cache (prefillAudioPositionIds cache inputIds.length addAudioBos)
      (fun p => makeStreamingChunkMask (kvSeqLen cache) textMask reservedLen 50 textChunkSize
        1 true (inputIds.length + (if addAudioBos then 1 else 0)) minVal p)
    intro l hl
    rw [h1] at hl
    obtain ⟨ek, ev, hek, hev, heq⟩ := h2 l hl
    obtain ⟨hu1, hu2⟩ := hu l hl
    rw [heq]
    have hplen : (prefillAudioPositionIds cache inputIds.length addAudioBos).length
        = inputIds.length + (if addAudioBos then 1 else 0) := by
      simp [prefillAudioPositionIds]
    constructor
    · simp only [List.length_append]
      omega
    · simp only [List.length_append]
      omega
  · intro cfg minVal stepLogits pick textMask i st st1 brk hu hstep hgrow
    simp only [genStep] at hstep
    split at hstep
    · exact absurd hstep (by simp)
    · rename ¬ st.ids.length ≠ kvSeqLen st.cache + 1 => halign
      split at hstep
      · -- step-0 eos break: `progress` did not advance, contradicting `hgrow`
        simp only [Option.some.injEq, Prod.mk.injEq] at hstep
        rw [← hstep.1] at hgrow
        simp at hgrow
      · simp only [Option.some.injEq, Prod.mk.injEq] at hstep
        obtain ⟨h1, h2⟩ := hB st.cache [kvSeqLen st.cache]
          (fun p => makeStreamingChunkMask (kvSeqLen st.cache) textMask cfg.reservedLen 50
            cfg.textChunkSize 1 true 1 minVal p)
        rw [← hstep.1]
        intro l hl
        simp only at hl
        rw [h1] at hl
        obtain ⟨ek, ev, hek, hev, heq⟩ := h2 l hl
        obtain ⟨hu1, hu2⟩ := hu l hl
        simp only [heq, List.length_append, List.length_append]
        simp only [List.length_singleton] at hek hev
        constructor
        · simp only [List.length_append, List.length_cons, List.length_nil]
          omega
        · simp only [List.length_append, List.length_cons, List.length_nil]
          omega

/-- C2 amended-claim witness: instantiates part (b) — a
`prefill_audio_ids` call with one audio id plus audio-bos on a
uniform-length-1 cache yields a uniform-length-3 cache. -/
theorem c2_cache_length_amended_witness :
    UniformLen (prefill_audio_ids (K := Int)
        (fun c pids _ => c.map fun kv =>
          (kv.1 ++ pids.map fun _ => 0, kv.2 ++ pids.map fun _ => 0))
        7 2 (-1000) [[0]] [([5], [6])] [] true)
      (1 + (1 + 1)) := by
  have hB : BackboneAppends (K := Int)
      (fun c pids _ => c.map fun kv =>
        (kv.1 ++ pids.map fun _ => 0, kv.2 ++ pids.map fun _ => 0)) := by
    intro c pids mask
    constructor
    · simp
    · intro l hl
      refine ⟨pids.map fun _ => 0, pids.map fun _ => 0, by simp, by simp, ?_⟩
      rw [List.getD_eq_getElem _ _ (by simpa using hl), List.getD_eq_getElem _ _ hl]
      simp
  have hu : UniformLen (K := Int) [([5], [6])] 1 := by
    intro l hl
    have hl0 : l = 0 := by simpa using hl
    subst hl0
    exact ⟨rfl, rfl⟩
  have h := (c2_cache_length_amended Int
    (fun c pids _ => c.map fun kv =>
      (kv.1 ++ pids.map fun _ => 0, kv.2 ++ pids.map fun _ => 0)) hB).2.1
    7 2 (-1000) [[0]] [([5], [6])] [] true 1 hu
  simpa using h

end MiniCPMO
